import Mathlib

/-!
Verification development for the dix repository (a Nix closure diff tool).

Strings are modelled as `List Char`. Rust compares `&str` values by their
UTF-8 bytes; for well-formed UTF-8 the byte order coincides with the
codepoint order, so byte-wise string comparison is modelled as lexicographic
comparison of `Char.toNat` values, and "byte-for-byte" equality of strings
is modelled as equality of the character lists.
-/

namespace Dix

/-- Separators used to split version strings (src/version.rs, SEPARATORS). -/
def separators : List Char := ['.', '-', '_', '+', '*', '=', '×', ' ']

/-- A version string with its display multiplicity
(src/version.rs, struct Version: name + amount). -/
structure Version where
  name : List Char
  amount : Nat
deriving DecidableEq, Repr

/-- Either a component or a separator from a version string
(src/version.rs, enum VersionPiece). Components and separators carry the
character run they cover. -/
inductive VersionPiece where
  | component (s : List Char)
  | separator (s : List Char)
deriving DecidableEq, Repr

/-- The characters covered by a piece. -/
def pieceText : VersionPiece → List Char
  | .component s => s
  | .separator s => s

/-- Helper for `pieces`: `acc` is the (reversed) run of non-separator
characters read so far; a separator or the end of the input flushes it as a
`component`. This realizes the `Pieces` iterator of src/version.rs, which
at each step emits a one-character separator, or a component covering the
longest run of non-separator characters. -/
def piecesAux (acc : List Char) : List Char → List VersionPiece
  | [] => if acc = [] then [] else [.component acc.reverse]
  | c :: rest =>
    if c ∈ separators then
      (if acc = [] then [] else [.component acc.reverse])
        ++ VersionPiece.separator [c] :: piecesAux [] rest
    else
      piecesAux (c :: acc) rest

/-- All pieces of a version string, in order (src/version.rs, Pieces iterator). -/
def pieces (s : List Char) : List VersionPiece := piecesAux [] s

/-- `pieces` emits a one-character separator when the input starts with a
separator character — the first arm of `Pieces::next`. -/
theorem pieces_sep_step (c : Char) (rest : List Char) (h : c ∈ separators) :
    pieces (c :: rest) = VersionPiece.separator [c] :: pieces rest := by
  simp [pieces, piecesAux, h]

theorem piecesAux_component_run (rest : List Char) : ∀ acc : List Char, acc ≠ [] →
    piecesAux acc rest =
      VersionPiece.component (acc.reverse ++ rest.takeWhile (· ∉ separators)) ::
        pieces (rest.dropWhile (· ∉ separators)) := by
  induction rest with
  | nil => intro acc hacc; simp [piecesAux, pieces, hacc]
  | cons c rest ih =>
    intro acc hacc
    by_cases hc : c ∈ separators
    · simp [piecesAux, hacc, hc, pieces, List.takeWhile, List.dropWhile]
    · have := ih (c :: acc) (by simp)
      simp only [piecesAux, if_neg hc, this, List.takeWhile, List.dropWhile]
      simp [hc]

/-- `pieces` emits the maximal non-separator run as a component when the
input starts with a non-separator character — the second arm of
`Pieces::next`. -/
theorem pieces_component_step (c : Char) (rest : List Char) (h : c ∉ separators) :
    pieces (c :: rest) =
      VersionPiece.component (c :: rest.takeWhile (· ∉ separators)) ::
        pieces (rest.dropWhile (· ∉ separators)) := by
  have := piecesAux_component_run rest [c] (by simp)
  simpa [pieces, piecesAux, h] using this

/-- Concatenation of the characters of all pieces. -/
def joinPieces (l : List VersionPiece) : List Char := (l.map pieceText).flatten

theorem joinPieces_piecesAux (s : List Char) : ∀ acc : List Char,
    joinPieces (piecesAux acc s) = acc.reverse ++ s := by
  induction s with
  | nil =>
    intro acc
    by_cases h : acc = [] <;> simp [piecesAux, h, joinPieces, pieceText]
  | cons c rest ih =>
    intro acc
    by_cases hc : c ∈ separators
    · have h0 : (List.map pieceText (piecesAux [] rest)).flatten = rest := by
        simpa [joinPieces] using ih []
      by_cases h : acc = [] <;>
        simp [piecesAux, h, hc, joinPieces, pieceText, h0]
    · simpa [piecesAux, hc, joinPieces] using ih (c :: acc)

theorem piecesAux_ne_nil (s : List Char) : ∀ acc : List Char, acc ≠ [] ∨ s ≠ [] →
    piecesAux acc s ≠ [] := by
  induction s with
  | nil =>
    intro acc h
    rcases h with h | h
    · simp [piecesAux, h]
    · exact absurd rfl h
  | cons c rest ih =>
    intro acc _
    by_cases hc : c ∈ separators
    · by_cases h : acc = [] <;> simp [piecesAux, h, hc]
    · simpa [piecesAux, hc] using ih (c :: acc) (Or.inl (by simp))

/-- C10: for every version string (empty and multi-byte Unicode included),
concatenating the pieces produced by the piece iterator, components and
separators in order, yields the original string again byte for byte, and
every non-empty string yields at least one piece. -/
theorem pieces_roundtrip (s : List Char) :
    joinPieces (pieces s) = s ∧ (s ≠ [] → pieces s ≠ []) := by
  constructor
  · simpa using joinPieces_piecesAux s []
  · intro h
    exact piecesAux_ne_nil s [] (Or.inr h)

/-- Witness for C10 on a concrete Unicode version string. -/
theorem pieces_roundtrip_witness :
    joinPieces (pieces ("1.2×α-pre".toList)) = ("1.2×α-pre".toList) ∧
      pieces ("1.2×α-pre".toList) ≠ [] :=
  ⟨(pieces_roundtrip ("1.2×α-pre".toList)).1,
    (pieces_roundtrip ("1.2×α-pre".toList)).2 (by decide)⟩

/-- A component is numeric iff it is non-empty and all its characters are
ASCII digits (src/version.rs, VersionComponent::is_numeric; the Rust code
checks that every byte is an ASCII digit, which for UTF-8 text is equivalent
to every character being an ASCII digit). -/
def isNumeric (s : List Char) : Bool := !s.isEmpty && s.all (·.isDigit)

/-- The unbounded integer value of a digit string. -/
def natValue (s : List Char) : Nat := s.foldl (fun a c => 10 * a + (c.toNat - 48)) 0

/-- Model of `VersionComponent::as_u64`: `u64::from_str` succeeds exactly on
numeric strings whose value fits in 64 bits; on overflow it returns an error,
modelled as `none` (src/version.rs, as_u64). -/
def asU64 (s : List Char) : Option Nat :=
  if isNumeric s = true ∧ natValue s < 2 ^ 64 then some (natValue s) else none

/-- Byte-wise lexicographic comparison of Rust `&str` values, modelled on
characters (UTF-8 byte order equals codepoint order). -/
def lexCmp : List Char → List Char → Ordering
  | [], [] => .eq
  | [], _ :: _ => .lt
  | _ :: _, [] => .gt
  | a :: as_, b :: bs =>
    match compare a.toNat b.toNat with
    | .eq => lexCmp as_ bs
    | o => o

/-- Comparison of two version components (src/version.rs, Ord for
VersionComponent): numeric/numeric goes through `as_u64` with a byte-wise
fallback when either parse fails, text/text special-cases the literal
token matched first ("pre" on the left wins), and mixed arms return
Less for (numeric, text) and Greater for (text, numeric). -/
def compCmp (a b : List Char) : Ordering :=
  match isNumeric a, isNumeric b with
  | true, true =>
    match asU64 a, asU64 b with
    | some x, some y => compare x y
    | _, _ => lexCmp a b
  | false, false =>
    if a = ("pre".toList) then .lt
    else if b = ("pre".toList) then .gt
    else lexCmp a b
  | true, false => .lt
  | false, true => .gt

/-- The component list of a version string (src/version.rs,
Version::components: pieces filtered to components). -/
def components (s : List Char) : List (List Char) :=
  (pieces s).filterMap fun p =>
    match p with
    | .component c => some c
    | .separator _ => none

/-- Tail of `Ord for Version`: compare component lists pointwise; when one
side runs out first, the longer side is a pre-release (hence smaller) if any
of its extra components is non-numeric, and greater otherwise
(src/version.rs, lines 55-93). -/
def versionCmpComps : List (List Char) → List (List Char) → Ordering
  | [], [] => .eq
  | [], extra :: more =>
    if (extra :: more).any (fun c => !(isNumeric c)) then .gt else .lt
  | extra :: more, [] =>
    if (extra :: more).any (fun c => !(isNumeric c)) then .lt else .gt
  | a :: as_, b :: bs =>
    match compCmp a b with
    | .eq => versionCmpComps as_ bs
    | o => o

/-- Comparison of two versions (src/version.rs, Ord for Version). The
`amount` field does not participate. -/
def versionCmp (a b : Version) : Ordering :=
  versionCmpComps (components a.name) (components b.name)

/-- C1 as stated is false: the code orders a numeric component strictly
BELOW a non-numeric component (the `(true, false) => Less` arm), as its own
test `component_comparison_pre_special_case` confirms. Concretely the
numeric component "1" compares Less, not Greater, against the text
component "a". -/
theorem numeric_below_text_counterexample :
    isNumeric ("1".toList) = true ∧ isNumeric ("a".toList) = false ∧
      compCmp ("1".toList) ("a".toList) = .lt ∧
      compCmp ("1".toList) ("a".toList) ≠ .gt := by
  decide

/-- C1 (amended): for every pair of version components where exactly one is
numeric and the other is non-numeric, VersionComponent::cmp orders the
numeric component strictly LESS than the non-numeric component. -/
theorem numeric_below_text (a b : List Char)
    (ha : isNumeric a = true) (hb : isNumeric b = false) :
    compCmp a b = .lt ∧ compCmp b a = .gt := by
  constructor <;> simp [compCmp, ha, hb]

/-- Witness for the amended C1 at a concrete pair. -/
theorem numeric_below_text_witness :
    compCmp ("2".toList) ("alpha".toList) = .lt ∧
      compCmp ("alpha".toList) ("2".toList) = .gt :=
  numeric_below_text ("2".toList) ("alpha".toList) (by decide) (by decide)

/-- C4 as stated is false: for numeric components whose values exceed u64,
`as_u64` fails and the code falls back to byte-wise comparison, so the
20-digit number 99999999999999999999 compares Greater against the 21-digit
number 100000000000000000000 although its magnitude is smaller. -/
theorem numeric_overflow_counterexample :
    isNumeric ("99999999999999999999".toList) = true ∧
      isNumeric ("100000000000000000000".toList) = true ∧
      natValue ("99999999999999999999".toList) <
        natValue ("100000000000000000000".toList) ∧
      compCmp ("99999999999999999999".toList)
        ("100000000000000000000".toList) = .gt := by
  decide

/-- C4 (amended): for numeric version components whose integer values both
fit in u64 (are < 2^64), VersionComponent::cmp compares them by integer
magnitude; when either value overflows u64 the code instead falls back to
byte-wise lexicographic comparison. -/
theorem numeric_cmp_by_magnitude (a b : List Char)
    (ha : isNumeric a = true) (hb : isNumeric b = true)
    (ha' : natValue a < 2 ^ 64) (hb' : natValue b < 2 ^ 64) :
    compCmp a b = compare (natValue a) (natValue b) := by
  simp only [compCmp, ha, hb, asU64]
  rw [if_pos ⟨trivial, ha'⟩, if_pos ⟨trivial, hb'⟩]

/-- Witness for the amended C4 at a concrete pair. -/
theorem numeric_cmp_by_magnitude_witness :
    compCmp ("10".toList) ("2".toList) =
      compare (natValue ("10".toList)) (natValue ("2".toList)) :=
  numeric_cmp_by_magnitude ("10".toList) ("2".toList)
    (by decide) (by decide) (by decide) (by decide)

/-- C5 is right and the code is wrong: Version::cmp is not a total preorder.
The component arm `("pre", _) => Less` makes the version "pre" compare Less
against itself, so cmp(a,b) is not the reverse of cmp(b,a) (contradicting
the Ord contract with the derived equality); and the u64-overflow fallback
to byte order breaks transitivity on the versions "10",
"19999999999999999999", "2": the first two comparisons are Less yet
cmp("10","2") is Greater. -/
theorem version_order_not_preorder :
    versionCmp ⟨("pre".toList), 1⟩ ⟨("pre".toList), 1⟩ = .lt ∧
      versionCmp ⟨("10".toList), 1⟩ ⟨("19999999999999999999".toList), 1⟩ = .lt ∧
      versionCmp ⟨("19999999999999999999".toList), 1⟩ ⟨("2".toList), 1⟩ = .lt ∧
      versionCmp ⟨("10".toList), 1⟩ ⟨("2".toList), 1⟩ = .gt := by
  decide


/-- Split a path string at `/` separators (the raw segments, empty ones
included). -/
def splitSlashAux (cur : List Char) : List Char → List (List Char)
  | [] => [cur.reverse]
  | c :: rest =>
    if c = '/' then cur.reverse :: splitSlashAux [] rest
    else splitSlashAux (c :: cur) rest

/-- The normal components of a path as `Path::components` yields them:
repeated separators give empty segments which are dropped, and `.` segments
are normalized away (a leading `.` cannot occur after the root of an
absolute path); `..` segments are kept. -/
def pathComponents (p : List Char) : List (List Char) :=
  (splitSlashAux [] p).filter fun seg => seg ≠ [] ∧ seg ≠ ['.']

/-- Model of `StorePath::try_from` acceptance (src/lib.rs, lines 42-57):
`Path::starts_with("/nix/store")` holds component-wise — the path is
absolute and its first two normal components are `nix` and `store`. This
also accepts paths such as `/nix//store/...` or `/nix/./store/...` whose
string form does not literally start with `/nix/store/`. -/
def storePathAccepted (p : List Char) : Bool :=
  p.headD ' ' = '/' && (pathComponents p).take 2 = [("nix".toList), ("store".toList)]

/-- The UTF-8 encoded length of one character. -/
def utf8Len (c : Char) : Nat :=
  if c.toNat < 0x80 then 1
  else if c.toNat < 0x800 then 2
  else if c.toNat < 0x10000 then 3
  else 4

/-- The UTF-8 encoding of one character. -/
def utf8Bytes (c : Char) : List Nat :=
  if c.toNat < 0x80 then [c.toNat]
  else if c.toNat < 0x800 then
    [0xC0 + c.toNat / 64, 0x80 + c.toNat % 64]
  else if c.toNat < 0x10000 then
    [0xE0 + c.toNat / 4096, 0x80 + c.toNat / 64 % 64, 0x80 + c.toNat % 64]
  else
    [0xF0 + c.toNat / 262144, 0x80 + c.toNat / 4096 % 64,
      0x80 + c.toNat / 64 % 64, 0x80 + c.toNat % 64]

/-- The UTF-8 bytes of a string, on which Rust's byte indexing and byte
slicing operate. -/
def strBytes (s : List Char) : List Nat := (s.map utf8Bytes).flatten

/-- Drop the characters covering the first `n` bytes of a string, modelling
the byte slice `&path[n..]`. Only used where `n` falls on a character
boundary (the slice panics otherwise; the callers below establish the
boundary before using the result). -/
def dropBytesChars : Nat → List Char → List Char
  | _, [] => []
  | n, c :: s => if n = 0 then c :: s else dropBytesChars (n - utf8Len c) s

/-- Outcome of `StorePath::parse_name_and_version`: a panic (failed
positional assert or out-of-bounds byte slice), an error value (`eyre`
Result), or a parsed name with optional version. -/
inductive ParseResult where
  | panics
  | err
  | ok (name : List Char) (version : Option Version)
deriving DecidableEq, Repr

/-- The scanning core of the store-path regex `(.+?)(-([0-9].*?))?$` under
the regex crate's leftmost-first semantics: the lazy `.+?` makes the match
split at the FIRST later position where a `-` is immediately followed by an
ASCII digit; if no such position exists the whole remainder is the name.
`acc` holds the characters committed to the name so far (at least the first
character, since `.+?` needs one). -/
def splitGo (acc : List Char) : List Char → List Char × Option (List Char)
  | [] => (acc, none)
  | c :: rest =>
    if c = '-' then
      match rest with
      | d :: rest' =>
        if d.isDigit then (acc, some (d :: rest')) else splitGo (acc ++ [c]) rest
      | [] => (acc ++ [c], none)
    else splitGo (acc ++ [c]) rest

/-- The suffix of a string after its last newline (the whole string when it
contains none). -/
def afterLastNewline (s : List Char) : List Char :=
  s.foldl (fun acc c => if c = '\n' then [] else acc ++ [c]) []

/-- Capture extraction of the store-path regex on the stripped remainder.
In the regex crate's default mode `.` matches any character except `\n` and
`$` matches only the end of the haystack, and the search is not anchored at
the start: every match ends at the end of the haystack and spans no
newline, so the leftmost match starts right after the last newline. A
remainder that is empty, or ends with a newline, has no match (error).
Within the matched suffix the lazy `.+?` splits at the first position where
a `-` is immediately followed by an ASCII digit; the version capture is
returned after the code's `trim_start_matches('-')`, i.e. without its
leading dash. Capture 1 is always non-empty. -/
def nameVerSplit (s : List Char) : Option (List Char × Option (List Char)) :=
  match afterLastNewline s with
  | [] => none
  | c :: rest => some (splitGo [c] rest)

/-- Model of `StorePath::parse_name_and_version` (src/lib.rs, lines 59-108),
with Rust's byte positions made explicit through `strBytes`. The two
`assert_eq!` checks and the byte slices `path[..11]`, `path[43..44]` and
`path[44..]` panic when the path is shorter than the sliced range, when a
slice boundary falls inside a multi-byte character, or when the asserted
bytes differ; since the asserted bytes are ASCII, a byte mismatch and a
boundary violation both panic, and a byte match implies the boundary is
sound (byte 43 equal to 45 is a one-byte character, so 44 is a boundary).
A non-matching regex produces an error value. The `bail!` on an empty name
is unreachable because capture 1 of the regex is always non-empty. Paths
whose OsStr is not valid unicode fail the earlier `to_str` conversion with
an error and are outside this model. -/
def parseNameAndVersion (path : List Char) : ParseResult :=
  if (strBytes path).length < 11 then .panics
  else if (strBytes path).take 11 = strBytes ("/nix/store/".toList) then
    if (strBytes path).length < 44 then .panics
    else if (strBytes path).getD 43 0 = 45 then
      match nameVerSplit (dropBytesChars 44 path) with
      | none => .err
      | some (name, ver) => .ok name (ver.map fun v => ⟨v, 1⟩)
    else .panics
  else .panics

/-- Whether a string starts with an ASCII digit. -/
def startsWithDigit : List Char → Bool
  | [] => false
  | c :: _ => c.isDigit

/-- Whether a string contains a dash immediately followed by an ASCII
digit, the split pattern of the store-path regex. -/
def hasDashDigit : List Char → Bool
  | [] => false
  | c :: rest =>
    if c = '-' then
      match rest with
      | d :: _ => d.isDigit || hasDashDigit rest
      | [] => false
    else hasDashDigit rest

theorem hyphen_not_digit : ('-').isDigit = false := by decide

theorem hasDashDigit_dash_cons (d : Char) (rest : List Char) :
    hasDashDigit ('-' :: d :: rest) = (d.isDigit || hasDashDigit (d :: rest)) := by
  simp [hasDashDigit]

theorem hasDashDigit_dash_nil : hasDashDigit ['-'] = false := by decide

theorem hasDashDigit_other_cons (c : Char) (rest : List Char) (hc : c ≠ '-') :
    hasDashDigit (c :: rest) = hasDashDigit rest := by
  simp [hasDashDigit, hc]

theorem hasDashDigit_cons {c : Char} {l : List Char}
    (h : hasDashDigit (c :: l) = false) : hasDashDigit l = false := by
  by_cases hc : c = '-'
  · subst hc
    cases l with
    | nil => simp [hasDashDigit]
    | cons d rest =>
      rw [hasDashDigit_dash_cons, Bool.or_eq_false_iff] at h
      exact h.2
  · rwa [hasDashDigit_other_cons c l hc] at h

theorem splitGo_nil (acc : List Char) : splitGo acc [] = (acc, none) := rfl

theorem splitGo_dash_cons (acc : List Char) (d : Char) (rest : List Char) :
    splitGo acc ('-' :: d :: rest) =
      if d.isDigit then (acc, some (d :: rest))
      else splitGo (acc ++ ['-']) (d :: rest) := by
  simp [splitGo]

theorem splitGo_dash_nil (acc : List Char) : splitGo acc ['-'] = (acc ++ ['-'], none) := by
  simp [splitGo]

theorem splitGo_other_cons (acc : List Char) (c : Char) (rest : List Char)
    (hc : c ≠ '-') : splitGo acc (c :: rest) = splitGo (acc ++ [c]) rest := by
  simp [splitGo, hc]

theorem splitGo_no_dashDigit (s : List Char) : ∀ acc : List Char,
    hasDashDigit s = false → splitGo acc s = (acc ++ s, none) := by
  induction s with
  | nil => intro acc _; simp [splitGo]
  | cons c rest ih =>
    intro acc h
    by_cases hc : c = '-'
    · subst hc
      cases rest with
      | nil => simp [splitGo_dash_nil]
      | cons d rest' =>
        rw [hasDashDigit_dash_cons, Bool.or_eq_false_iff] at h
        rw [splitGo_dash_cons, if_neg (by simp [h.1]), ih _ h.2]
        simp
    · rw [splitGo_other_cons _ _ _ hc, ih _ (by rwa [hasDashDigit_other_cons _ _ hc] at h)]
      simp

theorem splitGo_junction (version : List Char) (d : Char) (hd : d.isDigit = true)
    (ntail : List Char) : ∀ acc : List Char, hasDashDigit ntail = false →
    splitGo acc (ntail ++ '-' :: d :: version) = (acc ++ ntail, some (d :: version)) := by
  induction ntail with
  | nil =>
    intro acc _
    rw [List.nil_append, splitGo_dash_cons, if_pos hd]
    simp
  | cons c ctail ih =>
    intro acc h
    by_cases hc : c = '-'
    · subst hc
      cases ctail with
      | nil =>
        have h0 := ih (acc ++ ['-']) (by simp [hasDashDigit])
        rw [List.nil_append] at h0
        rw [List.cons_append, List.nil_append, splitGo_dash_cons,
          if_neg (by simp [hyphen_not_digit]), h0]
        simp
      | cons e etail =>
        rw [hasDashDigit_dash_cons, Bool.or_eq_false_iff] at h
        rw [List.cons_append, List.cons_append, splitGo_dash_cons,
          if_neg (by simp [h.1]), ← List.cons_append, ih (acc ++ ['-']) h.2]
        simp
    · rw [List.cons_append, splitGo_other_cons _ _ _ hc,
        ih (acc ++ [c]) (by rwa [hasDashDigit_other_cons _ _ hc] at h)]
      simp

theorem hasDashDigit_append_junction (version : List Char)
    (hv : startsWithDigit version = false)
    (hvd : hasDashDigit version = false) :
    ∀ ntail : List Char, hasDashDigit ntail = false →
      hasDashDigit (ntail ++ '-' :: version) = false := by
  intro ntail
  induction ntail with
  | nil =>
    intro _
    cases version with
    | nil => decide
    | cons v0 vt =>
      rw [List.nil_append, hasDashDigit_dash_cons, Bool.or_eq_false_iff]
      exact ⟨by simpa [startsWithDigit] using hv, hvd⟩
  | cons c ctail ih =>
    intro h
    by_cases hc : c = '-'
    · subst hc
      cases ctail with
      | nil =>
        rw [List.cons_append, List.nil_append, hasDashDigit_dash_cons,
          Bool.or_eq_false_iff]
        exact ⟨hyphen_not_digit, ih (by simp [hasDashDigit])⟩
      | cons e etail =>
        rw [hasDashDigit_dash_cons, Bool.or_eq_false_iff] at h
        rw [List.cons_append, List.cons_append, hasDashDigit_dash_cons,
          Bool.or_eq_false_iff, ← List.cons_append]
        exact ⟨h.1, ih h.2⟩
    · rw [List.cons_append, hasDashDigit_other_cons _ _ hc]
      exact ih (by rwa [hasDashDigit_other_cons _ _ hc] at h)

theorem length_utf8Bytes (c : Char) : (utf8Bytes c).length = utf8Len c := by
  rw [utf8Bytes, utf8Len]
  split_ifs <;> rfl

theorem utf8Len_pos (c : Char) : 1 ≤ utf8Len c := by
  rw [utf8Len]
  split_ifs <;> omega

theorem strBytes_append (l r : List Char) :
    strBytes (l ++ r) = strBytes l ++ strBytes r := by
  simp [strBytes]

theorem dropBytesChars_length (l : List Char) : ∀ r : List Char,
    dropBytesChars (strBytes l).length (l ++ r) = r := by
  induction l with
  | nil =>
    intro r
    cases r with
    | nil => rfl
    | cons c s => simp [strBytes, dropBytesChars]
  | cons c l ih =>
    intro r
    have hpos := utf8Len_pos c
    have hlen2 : (strBytes (c :: l)).length = utf8Len c + (strBytes l).length := by
      simp [strBytes, length_utf8Bytes]
    rw [List.cons_append, hlen2]
    simp only [dropBytesChars]
    rw [if_neg (by omega)]
    have harith : utf8Len c + (strBytes l).length - utf8Len c = (strBytes l).length := by
      omega
    rw [harith, ih r]

theorem afterLastNewline_no_newline (s : List Char) (hs : ('\n') ∉ s) :
    afterLastNewline s = s := by
  have key : ∀ (t : List Char) (acc : List Char), ('\n') ∉ t →
      t.foldl (fun acc c => if c = '\n' then [] else acc ++ [c]) acc = acc ++ t := by
    intro t
    induction t with
    | nil => intro acc _; simp
    | cons c rest ih =>
      intro acc ht
      have hc : ¬ c = '\n' := fun h => ht (by simp [h])
      rw [List.foldl_cons, if_neg hc,
        ih (acc ++ [c]) (fun h => ht (List.mem_cons_of_mem _ h))]
      simp
  simpa [afterLastNewline] using key s [] hs

/-- C6 as stated is false: the accepted store path `/nix/store/abc` makes
`parse_name_and_version` panic in the `&path[43..44]` byte slice instead of
returning an error value. Also, the component-wise acceptance is wider than
the literal byte shape: `/nix//store/` + 31 zeros + `-x` is accepted and
even has 44 bytes with a dash at byte 43, yet panics in the
`&path[..11]` assert — so no-panic needs the literal byte shape below. -/
theorem parse_short_path_panics :
    storePathAccepted ("/nix/store/abc".toList) = true ∧
      parseNameAndVersion ("/nix/store/abc".toList) = .panics ∧
      storePathAccepted ("/nix//store/0000000000000000000000000000000-x".toList) = true ∧
      44 ≤ (strBytes ("/nix//store/0000000000000000000000000000000-x".toList)).length ∧
      (strBytes ("/nix//store/0000000000000000000000000000000-x".toList)).getD 43 0 = 45 ∧
      parseNameAndVersion ("/nix//store/0000000000000000000000000000000-x".toList) =
        .panics := by
  decide

/-- C6 (amended): for every path accepted by StorePath construction whose
UTF-8 bytes also have the asserted shape — bytes 0..11 literally
`/nix/store/`, byte length at least 44, and byte 43 equal to `-` (so the
sliced positions are character boundaries) — parse_name_and_version returns
a Result value, never a panic. An accepted path without that byte shape
(such as /nix/store/abc, or /nix//store/..., or one with a multi-byte
character displacing the dash from byte 43) panics in the positional
asserts or byte slices instead. -/
theorem parse_no_panic_on_shaped_path (p : List Char)
    (_hacc : storePathAccepted p = true)
    (hpre : (strBytes p).take 11 = strBytes ("/nix/store/".toList))
    (hlen : 44 ≤ (strBytes p).length)
    (hdash : (strBytes p).getD 43 0 = 45) :
    parseNameAndVersion p ≠ .panics := by
  have h11 : ¬ (strBytes p).length < 11 := by omega
  have h44 : ¬ (strBytes p).length < 44 := by omega
  rw [parseNameAndVersion, if_neg h11, if_pos hpre, if_neg h44, if_pos hdash]
  cases hsplit : nameVerSplit (dropBytesChars 44 p) with
  | none => simp
  | some nv => cases nv with | mk a b => simp

/-- Witness for the amended C6 at a concrete well-shaped store path. -/
theorem parse_no_panic_on_shaped_path_witness :
    parseNameAndVersion
      ("/nix/store/cg09nslw3w6afyynjw484b86d47ic1cb-coreutils-9.7".toList) ≠
      .panics :=
  parse_no_panic_on_shaped_path
    ("/nix/store/cg09nslw3w6afyynjw484b86d47ic1cb-coreutils-9.7".toList)
    (by decide) (by decide) (by decide) (by decide)

/-- A store path root with the zero hash: `/nix/store/` + 32 zeros + `-`. -/
def zeroHashRoot : List Char :=
  ("/nix/store/00000000000000000000000000000000-".toList)

/-- C7 as stated is false: for name `a-1` and version `2`, the built path
parses to `("a", Some("1-2"))` because the lazy regex splits at the FIRST
dash-digit position, not at the name/version boundary. -/
theorem parse_built_path_counterexample :
    parseNameAndVersion (zeroHashRoot ++ ("a-1".toList) ++ '-' :: ("2".toList)) =
        .ok ("a".toList) (some ⟨("1-2".toList), 1⟩) ∧
      ParseResult.ok ("a".toList) (some ⟨("1-2".toList), 1⟩) ≠
        .ok ("a-1".toList) (some ⟨("2".toList), 1⟩) := by
  decide

/-- C7 (amended): for every non-empty name and every version, both free of
newlines (the regex `.` matches no newline, so a newline-containing
remainder matches only after its last newline) and free of any dash
immediately followed by an ASCII digit (for the version this is only
required when it does not itself start with a digit), parsing the path
`/nix/store/` + 32 zeros + `-` + name + `-` + version returns
`(name, Some(version))` exactly when the version starts with an ASCII digit,
and `(name + "-" + version, None)` otherwise. -/
theorem parse_built_path (name version : List Char) (h1 : name ≠ [])
    (h2 : hasDashDigit name = false)
    (h3 : startsWithDigit version = false → hasDashDigit version = false)
    (hn1 : ('\n') ∉ name) (hn2 : ('\n') ∉ version) :
    parseNameAndVersion (zeroHashRoot ++ name ++ '-' :: version) =
      if startsWithDigit version then .ok name (some ⟨version, 1⟩)
      else .ok (name ++ '-' :: version) none := by
  have hzb : (strBytes zeroHashRoot).length = 44 := by decide
  have hsb : strBytes (zeroHashRoot ++ name ++ '-' :: version) =
      strBytes zeroHashRoot ++ strBytes (name ++ '-' :: version) := by
    rw [List.append_assoc, strBytes_append]
  have hlen : 44 ≤ (strBytes (zeroHashRoot ++ name ++ '-' :: version)).length := by
    rw [hsb, List.length_append, hzb]
    omega
  have htake : (strBytes (zeroHashRoot ++ name ++ '-' :: version)).take 11 =
      strBytes ("/nix/store/".toList) := by
    rw [hsb, List.take_append_of_le_length (by omega)]
    decide
  have hdash : (strBytes (zeroHashRoot ++ name ++ '-' :: version)).getD 43 0 = 45 := by
    rw [hsb, List.getD_append _ _ 0 43 (by omega)]
    decide
  have hdrop : dropBytesChars 44 (zeroHashRoot ++ name ++ '-' :: version) =
      name ++ '-' :: version := by
    rw [List.append_assoc, ← hzb, dropBytesChars_length]
  have h11 : ¬ (strBytes (zeroHashRoot ++ name ++ '-' :: version)).length < 11 := by
    omega
  have h44 : ¬ (strBytes (zeroHashRoot ++ name ++ '-' :: version)).length < 44 := by
    omega
  have hnl : ('\n') ∉ name ++ '-' :: version := by
    intro h
    rcases List.mem_append.mp h with h | h
    · exact hn1 h
    · rcases List.mem_cons.mp h with h | h
      · exact absurd h.symm (by decide)
      · exact hn2 h
  rw [parseNameAndVersion, if_neg h11, if_pos htake, if_neg h44, if_pos hdash, hdrop]
  cases name with
  | nil => exact absurd rfl h1
  | cons n0 ntail =>
    have hnt : hasDashDigit ntail = false := hasDashDigit_cons h2
    have hsplit : nameVerSplit ((n0 :: ntail) ++ '-' :: version) =
        some (splitGo [n0] (ntail ++ '-' :: version)) := by
      simp only [nameVerSplit]
      rw [afterLastNewline_no_newline _ hnl, List.cons_append]
    rw [hsplit]
    by_cases hdig : startsWithDigit version = true
    · cases version with
      | nil => simp [startsWithDigit] at hdig
      | cons d vtail =>
        rw [splitGo_junction vtail d (by simpa [startsWithDigit] using hdig) ntail [n0] hnt]
        simp [hdig]
    · have hb := hasDashDigit_append_junction version
        (by simpa using hdig) (h3 (by simpa using hdig)) ntail hnt
      rw [splitGo_no_dashDigit (ntail ++ '-' :: version) [n0] hb]
      simp [hdig]

/-- Witness for the amended C7 at a concrete name and version. -/
theorem parse_built_path_witness :
    parseNameAndVersion (zeroHashRoot ++ ("coreutils".toList) ++ '-' :: ("9.7".toList)) =
      if startsWithDigit ("9.7".toList)
      then .ok ("coreutils".toList) (some ⟨("9.7".toList), 1⟩)
      else .ok (("coreutils".toList) ++ '-' :: ("9.7".toList)) none :=
  parse_built_path ("coreutils".toList) ("9.7".toList)
    (by decide) (by decide) (by decide) (by decide) (by decide)

/-- `EitherOrBoth` pairing values as produced by itertools and used by
`match_version_lists` (src/diff.rs). -/
inductive EitherOrBoth (α β : Type) where
  | left (a : α)
  | right (b : β)
  | both (a : α) (b : β)
deriving DecidableEq, Repr

/-- `EitherOrBoth::flip`, swapping the two sides. -/
def EitherOrBoth.flipSides : EitherOrBoth α β → EitherOrBoth β α
  | .left a => .right a
  | .right b => .left b
  | .both a b => .both b a

/-- The comparison `sort_unstable` uses: not-greater under Version::cmp. -/
def versionLe (a b : Version) : Prop := versionCmp a b ≠ Ordering.gt

instance : DecidableRel versionLe :=
  fun a b => inferInstanceAs (Decidable (versionCmp a b ≠ Ordering.gt))

/-- Out-of-range index fallback for the Rust slice indexing `from[i]` /
`to[j]`, which under the solver's contract is never reached. -/
def defaultVersion : Version := ⟨[], 1⟩

/-- The body of `match_version_lists` after the early returns and the swap
(src/diff.rs, lines 340-395). The external Hungarian solver
`pathfinding::kuhn_munkres_min` together with the Levenshtein cost matrix is
abstracted as `km`, which picks for each row index `i < f.length` a distinct
column `km f t # i < t.length`; every valid assignment is admitted, a
superset of what the solver can return. Matched pairs come first; unmatched
columns follow as `right`, sorted by Version order (the source collects them
from a HashSet in unspecified order and then sorts them). -/
def matchCore (km : List Version → List Version → List Nat) (f t : List Version) :
    List (EitherOrBoth Version Version) :=
  let m := km f t
  let boths := m.enum.map fun ij =>
    EitherOrBoth.both (f.getD ij.1 defaultVersion) (t.getD ij.2 defaultVersion)
  let remaining := (List.range t.length).filter fun j => j ∉ m
  let rights :=
    (List.insertionSort versionLe (remaining.map fun j => t.getD j defaultVersion)).map
      EitherOrBoth.right
  boths ++ rights

/-- Model of `match_version_lists` (src/diff.rs, lines 314-402): early
returns for an empty side, the quick path for equal singletons, the swap
that keeps rows at most columns for the solver, the solver pairing, and the
flip that restores the original orientation. -/
def matchVersionLists (km : List Version → List Version → List Nat)
    (f t : List Version) : List (EitherOrBoth Version Version) :=
  if f = [] then t.map .right
  else if t = [] then f.map .left
  else if f.length = 1 ∧ t.length = 1 ∧ f.getD 0 defaultVersion = t.getD 0 defaultVersion then
    [.both (f.getD 0 defaultVersion) (t.getD 0 defaultVersion)]
  else if t.length < f.length then (matchCore km t f).map .flipSides
  else matchCore km f t

/-- The left components of a pairing list: all `left` and `both` sides. -/
def eobOlds : List (EitherOrBoth Version Version) → List Version
  | [] => []
  | .left a :: r => a :: eobOlds r
  | .both a _ :: r => a :: eobOlds r
  | .right _ :: r => eobOlds r

/-- The right components of a pairing list: all `right` and `both` sides. -/
def eobNews : List (EitherOrBoth Version Version) → List Version
  | [] => []
  | .left _ :: r => eobNews r
  | .both _ b :: r => b :: eobNews r
  | .right b :: r => b :: eobNews r

theorem eobOlds_append (l₁ l₂ : List (EitherOrBoth Version Version)) :
    eobOlds (l₁ ++ l₂) = eobOlds l₁ ++ eobOlds l₂ := by
  induction l₁ with
  | nil => rfl
  | cons p r ih => cases p <;> simp [eobOlds, ih]

theorem eobNews_append (l₁ l₂ : List (EitherOrBoth Version Version)) :
    eobNews (l₁ ++ l₂) = eobNews l₁ ++ eobNews l₂ := by
  induction l₁ with
  | nil => rfl
  | cons p r ih => cases p <;> simp [eobNews, ih]

theorem eobOlds_map_right (l : List Version) :
    eobOlds (l.map .right) = [] := by
  induction l with
  | nil => rfl
  | cons a r ih => simp [eobOlds, ih]

theorem eobNews_map_right (l : List Version) :
    eobNews (l.map .right) = l := by
  induction l with
  | nil => rfl
  | cons a r ih => simp [eobNews, ih]

theorem eobOlds_map_left (l : List Version) :
    eobOlds (l.map .left) = l := by
  induction l with
  | nil => rfl
  | cons a r ih => simp [eobOlds, ih]

theorem eobNews_map_left (l : List Version) :
    eobNews (l.map .left) = [] := by
  induction l with
  | nil => rfl
  | cons a r ih => simp [eobNews, ih]

theorem eobOlds_map_flipSides (l : List (EitherOrBoth Version Version)) :
    eobOlds (l.map .flipSides) = eobNews l := by
  induction l with
  | nil => rfl
  | cons p r ih => cases p <;> simp [eobOlds, eobNews, EitherOrBoth.flipSides, ih]

theorem eobNews_map_flipSides (l : List (EitherOrBoth Version Version)) :
    eobNews (l.map .flipSides) = eobOlds l := by
  induction l with
  | nil => rfl
  | cons p r ih => cases p <;> simp [eobOlds, eobNews, EitherOrBoth.flipSides, ih]

theorem eobOlds_map_both {γ : Type} (l : List γ) (g h : γ → Version) :
    eobOlds (l.map fun x => EitherOrBoth.both (g x) (h x)) = l.map g := by
  induction l with
  | nil => rfl
  | cons a r ih => simp [eobOlds, ih]

theorem eobNews_map_both {γ : Type} (l : List γ) (g h : γ → Version) :
    eobNews (l.map fun x => EitherOrBoth.both (g x) (h x)) = l.map h := by
  induction l with
  | nil => rfl
  | cons a r ih => simp [eobNews, ih]

theorem map_getD_range {α : Type} (l : List α) (d : α) :
    (List.range l.length).map (fun i => l.getD i d) = l := by
  induction l with
  | nil => rfl
  | cons a r ih =>
    rw [List.length_cons, List.range_succ_eq_map, List.map_cons, List.map_map]
    have hc : ((fun i => (a :: r).getD i d) ∘ Nat.succ) = fun i => r.getD i d := by
      funext i; rfl
    rw [hc, ih]
    rfl

theorem singleton_of_length_one {α : Type} (l : List α) (d : α)
    (h : l.length = 1) : l = [l.getD 0 d] := by
  cases l with
  | nil => simp at h
  | cons a r =>
    cases r with
    | nil => rfl
    | cons b r' => simp at h

theorem append_filter_not_mem_perm_range (m : List Nat) (n : Nat)
    (hval : ∀ j ∈ m, j < n) (hnd : m.Nodup) :
    (m ++ (List.range n).filter fun j => j ∉ m).Perm (List.range n) := by
  apply List.perm_of_nodup_nodup_toFinset_eq
  · refine hnd.append ((List.nodup_range n).filter _) ?_
    rw [List.disjoint_left]
    intro a ham hafil
    have := (List.mem_filter.mp hafil).2
    simp only [decide_eq_true_eq] at this
    exact this ham
  · exact List.nodup_range n
  · ext a
    simp only [List.mem_toFinset, List.mem_append, List.mem_filter,
      List.mem_range, decide_eq_true_eq]
    constructor
    · rintro (h | h)
      · exact hval a h
      · exact h.1
    · intro h
      by_cases hm : a ∈ m
      · exact Or.inl hm
      · exact Or.inr ⟨h, hm⟩

theorem matchCore_olds (km : List Version → List Version → List Nat)
    (f t : List Version) (h1 : (km f t).length = f.length) :
    eobOlds (matchCore km f t) = f := by
  unfold matchCore
  rw [eobOlds_append, eobOlds_map_right, List.append_nil, eobOlds_map_both]
  have : (km f t).enum.map (fun ij => f.getD ij.1 defaultVersion) =
      ((km f t).enum.map Prod.fst).map fun i => f.getD i defaultVersion := by
    rw [List.map_map]; rfl
  rw [this, List.enum_map_fst, h1, map_getD_range]

theorem matchCore_news (km : List Version → List Version → List Nat)
    (f t : List Version) (hval : ∀ j ∈ km f t, j < t.length)
    (hnd : (km f t).Nodup) :
    (eobNews (matchCore km f t)).Perm t := by
  unfold matchCore
  rw [eobNews_append, eobNews_map_both]
  have hmap : (km f t).enum.map (fun ij => t.getD ij.2 defaultVersion) =
      (km f t).map fun j => t.getD j defaultVersion := by
    have : (km f t).enum.map (fun ij => t.getD ij.2 defaultVersion) =
        ((km f t).enum.map Prod.snd).map fun j => t.getD j defaultVersion := by
      rw [List.map_map]; rfl
    rw [this, List.enum_map_snd]
  have hsort :
      (eobNews ((List.insertionSort versionLe
          (((List.range t.length).filter fun j => j ∉ km f t).map
            fun j => t.getD j defaultVersion)).map EitherOrBoth.right)).Perm
        (((List.range t.length).filter fun j => j ∉ km f t).map
          fun j => t.getD j defaultVersion) := by
    rw [eobNews_map_right]
    exact List.perm_insertionSort versionLe _
  rw [hmap]
  have h1 : ((km f t).map (fun j => t.getD j defaultVersion) ++
      eobNews ((List.insertionSort versionLe
        (((List.range t.length).filter fun j => j ∉ km f t).map
          fun j => t.getD j defaultVersion)).map EitherOrBoth.right)).Perm
      (((km f t) ++ (List.range t.length).filter fun j => j ∉ km f t).map
        fun j => t.getD j defaultVersion) := by
    rw [List.map_append]
    exact (List.Perm.refl _).append hsort
  have h2 := (append_filter_not_mem_perm_range (km f t) t.length hval hnd).map
    (fun j => t.getD j defaultVersion)
  have h3 : ((List.range t.length).map fun j => t.getD j defaultVersion) = t :=
    map_getD_range t defaultVersion
  rw [h3] at h2
  exact h1.trans h2

/-- C9: for every pair of version lists, the pairing list returned by
match_version_lists is a permutation of the inputs: the left sides of all
`left` and `both` pairings are a permutation of the first list, and the
right sides of all `right` and `both` pairings are a permutation of the
second, each element appearing exactly once. The Hungarian solver is
abstracted by any assignment `km` satisfying its contract (one distinct
in-range column per row). -/
theorem match_version_lists_perm (km : List Version → List Version → List Nat)
    (hkm : ∀ a b : List Version, a ≠ [] → b ≠ [] → a.length ≤ b.length →
      (km a b).length = a.length ∧ (∀ j ∈ km a b, j < b.length) ∧ (km a b).Nodup)
    (f t : List Version) :
    (eobOlds (matchVersionLists km f t)).Perm f ∧
      (eobNews (matchVersionLists km f t)).Perm t := by
  unfold matchVersionLists
  by_cases hf : f = []
  · subst hf
    simp [eobOlds_map_right, eobNews_map_right]
  · rw [if_neg hf]
    by_cases ht : t = []
    · subst ht
      simp [eobOlds_map_left, eobNews_map_left]
    · rw [if_neg ht]
      by_cases hq : f.length = 1 ∧ t.length = 1 ∧
          f.getD 0 defaultVersion = t.getD 0 defaultVersion
      · rw [if_pos hq]
        constructor
        · rw [show eobOlds [EitherOrBoth.both (f.getD 0 defaultVersion)
            (t.getD 0 defaultVersion)] = [f.getD 0 defaultVersion] from rfl]
          rw [← singleton_of_length_one f defaultVersion hq.1]
        · rw [show eobNews [EitherOrBoth.both (f.getD 0 defaultVersion)
            (t.getD 0 defaultVersion)] = [t.getD 0 defaultVersion] from rfl]
          rw [← singleton_of_length_one t defaultVersion hq.2.1]
      · rw [if_neg hq]
        by_cases hswap : t.length < f.length
        · rw [if_pos hswap]
          obtain ⟨h1, h2, h3⟩ := hkm t f ht hf (Nat.le_of_lt hswap)
          constructor
          · rw [eobOlds_map_flipSides]
            exact matchCore_news km t f h2 h3
          · rw [eobNews_map_flipSides, matchCore_olds km t f h1]
        · rw [if_neg hswap]
          obtain ⟨h1, h2, h3⟩ := hkm f t hf ht (Nat.le_of_not_lt hswap)
          constructor
          · rw [matchCore_olds km f t h1]
          · exact matchCore_news km f t h2 h3

/-- A concrete assignment satisfying the Hungarian solver's contract:
row `i` is matched to column `i`. -/
def kmIdentity : List Version → List Version → List Nat :=
  fun f _ => List.range f.length

theorem kmIdentity_contract (a b : List Version) (_ : a ≠ []) (_ : b ≠ [])
    (hle : a.length ≤ b.length) :
    (kmIdentity a b).length = a.length ∧ (∀ j ∈ kmIdentity a b, j < b.length) ∧
      (kmIdentity a b).Nodup := by
  refine ⟨List.length_range a.length, ?_, List.nodup_range a.length⟩
  intro j hj
  have := List.mem_range.mp hj
  omega

/-- Witness for C9 at concrete lists and the identity assignment. -/
theorem match_version_lists_perm_witness :
    (eobOlds (matchVersionLists kmIdentity
        [⟨("1.0".toList), 1⟩, ⟨("2.0".toList), 1⟩] [⟨("3.0".toList), 1⟩])).Perm
      [⟨("1.0".toList), 1⟩, ⟨("2.0".toList), 1⟩] ∧
    (eobNews (matchVersionLists kmIdentity
        [⟨("1.0".toList), 1⟩, ⟨("2.0".toList), 1⟩] [⟨("3.0".toList), 1⟩])).Perm
      [⟨("3.0".toList), 1⟩] :=
  match_version_lists_perm kmIdentity kmIdentity_contract
    [⟨("1.0".toList), 1⟩, ⟨("2.0".toList), 1⟩] [⟨("3.0".toList), 1⟩]

/-- The change classification (src/diff.rs, enum Change). -/
inductive Change where
  | upgradeDowngrade
  | upgraded
  | downgraded
deriving DecidableEq, Repr

/-- The diff status (src/diff.rs, enum DiffStatus). -/
inductive DiffStatus where
  | changed (c : Change)
  | added
  | removed
deriving DecidableEq, Repr

/-- The selection status (src/diff.rs, enum DerivationSelectionStatus). -/
inductive SelectionStatus where
  | selected
  | newlySelected
  | unselected
  | newlyUnselected
deriving DecidableEq, Repr

/-- One diff record (src/diff.rs, struct Diff). -/
structure Diff where
  name : String
  old : List Version
  new : List Version
  status : DiffStatus
  selection : SelectionStatus
  hasCommonVersions : Bool
deriving DecidableEq, Repr

/-- One insertion into the count map of `count_versions`: bump an existing
key or append a new one. -/
def insertCount (m : List (Version × Nat)) (v : Version) : List (Version × Nat) :=
  match m with
  | [] => [(v, 1)]
  | (w, c) :: rest => if w = v then (w, c + 1) :: rest else (w, c) :: insertCount rest v

/-- Model of `count_versions` (src/diff.rs, lines 404-411): a HashMap from
each distinct version to its number of occurrences, modelled as an
association list in first-occurrence order (the HashMap's iteration order
is unspecified; only key membership and counts are observable). -/
def countVersions (versions : List Version) : List (Version × Nat) :=
  versions.foldl insertCount []

/-- The key set (`old_counts.keys()` / `new_counts.keys()`). -/
def countKeys (l : List Version) : List Version := (countVersions l).map Prod.fst

/-- `old_set.difference(&new_set)` of generate_diffs_from_paths. -/
def uniqueOld (oldV newV : List Version) : List Version :=
  (countKeys oldV).filter fun v => v ∉ countKeys newV

/-- `new_set.difference(&old_set)` of generate_diffs_from_paths. -/
def uniqueNew (oldV newV : List Version) : List Version :=
  (countKeys newV).filter fun v => v ∉ countKeys oldV

/-- `old_set.intersection(&new_set).count()` of generate_diffs_from_paths. -/
def commonCount (oldV newV : List Version) : Nat :=
  ((countKeys oldV).filter fun v => v ∈ countKeys newV).length

/-- Model of `determine_change_status` (src/diff.rs, lines 996-1027): walk
the pairings; an unmatched left is a downgrade signal, an unmatched right an
upgrade signal, and a matched pair signals according to Version order. The
source's early `break` once both signals are seen does not change the final
flags, so it is dropped. -/
def determineChangeStatus (km : List Version → List Version → List Nat)
    (oldVersions newVersions : List Version) : Option DiffStatus :=
  let pairs := matchVersionLists km oldVersions newVersions
  let sawUpgrade := pairs.any fun p =>
    match p with
    | .right _ => true
    | .both o n => decide (versionCmp o n = Ordering.lt)
    | .left _ => false
  let sawDowngrade := pairs.any fun p =>
    match p with
    | .left _ => true
    | .both o n => decide (versionCmp o n = Ordering.gt)
    | .right _ => false
  match sawUpgrade, sawDowngrade with
  | true, true => some (.changed .upgradeDowngrade)
  | true, false => some (.changed .upgraded)
  | false, true => some (.changed .downgraded)
  | false, false => none

/-- One bucket of `generate_diffs_from_paths` (src/diff.rs, lines 950-995):
`none` models the `continue` that skips the bucket, `some` the pushed Diff
record. -/
def bucketDiff (km : List Version → List Version → List Nat) (name : String)
    (oldV newV : List Version) : Option Diff :=
  let uo := uniqueOld oldV newV
  let un := uniqueNew oldV newV
  let common := commonCount oldV newV
  if uo = [] ∧ un = [] then none
  else some
    { name := name
      old := uo
      new := un
      status :=
        if common = 0 ∧ uo = [] then .added
        else if common = 0 ∧ un = [] then .removed
        else if uo = [] ∨ un = [] then .changed .upgradeDowngrade
        else (determineChangeStatus km uo un).getD (.changed .upgradeDowngrade)
      selection := .unselected
      hasCommonVersions := decide (0 < common) }

/-- Model of `generate_diffs_from_paths` (src/diff.rs, lines 950-995): one
optional Diff per bucket, in map iteration order. -/
def generateDiffsFromPaths (km : List Version → List Version → List Nat)
    (paths : List (String × List Version × List Version)) : List Diff :=
  paths.filterMap fun e => bucketDiff km e.1 e.2.1 e.2.2

theorem mem_keys_insertCount (v x : Version) (m : List (Version × Nat)) :
    x ∈ (insertCount m v).map Prod.fst ↔ x ∈ m.map Prod.fst ∨ x = v := by
  induction m with
  | nil => simp [insertCount]
  | cons p rest ih =>
    cases p with
    | mk w c =>
      by_cases hw : w = v
      · subst hw
        simp [insertCount]
        tauto
      · simp [insertCount, hw, ih]
        tauto

theorem mem_keys_foldl (x : Version) (l : List Version) :
    ∀ m : List (Version × Nat),
      (x ∈ (l.foldl insertCount m).map Prod.fst ↔ x ∈ m.map Prod.fst ∨ x ∈ l) := by
  induction l with
  | nil => intro m; simp
  | cons a r ih =>
    intro m
    rw [List.foldl_cons, ih (insertCount m a), mem_keys_insertCount]
    simp
    tauto

theorem mem_countKeys (x : Version) (l : List Version) :
    x ∈ countKeys l ↔ x ∈ l := by
  rw [countKeys, countVersions, mem_keys_foldl]
  simp

theorem determineChangeStatus_getD_changed
    (km : List Version → List Version → List Nat) (a b : List Version) :
    ∃ c, (determineChangeStatus km a b).getD (.changed .upgradeDowngrade) =
      .changed c := by
  rw [determineChangeStatus]
  rcases hu : (matchVersionLists km a b).any fun p =>
      match p with
      | .right _ => true
      | .both o n => decide (versionCmp o n = Ordering.lt)
      | .left _ => false with _ | _ <;>
    rcases hd : (matchVersionLists km a b).any fun p =>
        match p with
        | .left _ => true
        | .both o n => decide (versionCmp o n = Ordering.gt)
        | .right _ => false with _ | _ <;>
    simp [hu, hd]

/-- C8: every Diff record produced by the diff builder has old and new
restricted to the versions unique to their side (under the pipeline
invariant that all incoming versions carry amount 1, no version string
appears on both sides of one record); Added records have empty old, Removed
records have empty new, and Changed records have at least one non-empty
side. -/
theorem diff_record_invariants (km : List Version → List Version → List Nat)
    (paths : List (String × List Version × List Version))
    (hamt : ∀ p ∈ paths, (∀ v ∈ p.2.1, v.amount = 1) ∧ (∀ v ∈ p.2.2, v.amount = 1))
    (d : Diff) (hd : d ∈ generateDiffsFromPaths km paths) :
    (∀ vo ∈ d.old, ∀ vn ∈ d.new, vo.name ≠ vn.name) ∧
      (d.status = .added → d.old = []) ∧
      (d.status = .removed → d.new = []) ∧
      (∀ c, d.status = .changed c → ¬(d.old = [] ∧ d.new = [])) := by
  obtain ⟨e, hep, he⟩ := List.mem_filterMap.mp hd
  rw [bucketDiff] at he
  by_cases hcond : uniqueOld e.2.1 e.2.2 = [] ∧ uniqueNew e.2.1 e.2.2 = []
  · rw [if_pos hcond] at he
    exact absurd he (by simp)
  · rw [if_neg hcond] at he
    have hde := Option.some.inj he
    subst hde
    refine ⟨?_, ?_, ?_, ?_⟩
    · intro vo hvo vn hvn hnames
      simp only at hvo hvn
      have h1 := List.mem_filter.mp hvo
      have h2 := List.mem_filter.mp hvn
      have hvo_old : vo ∈ e.2.1 := (mem_countKeys vo e.2.1).mp h1.1
      have hvn_new : vn ∈ e.2.2 := (mem_countKeys vn e.2.2).mp h2.1
      have hvo_amt : vo.amount = 1 := (hamt e hep).1 vo hvo_old
      have hvn_amt : vn.amount = 1 := (hamt e hep).2 vn hvn_new
      have hveq : vo = vn := by
        cases vo; cases vn
        simp only at hnames hvo_amt hvn_amt
        simp [hnames, hvo_amt, hvn_amt]
      have : vo ∉ countKeys e.2.2 := by
        have := h1.2
        simpa using this
      exact this (hveq ▸ (mem_countKeys vn e.2.2).mpr hvn_new)
    · intro hst
      simp only at hst ⊢
      by_cases c1 : commonCount e.2.1 e.2.2 = 0 ∧ uniqueOld e.2.1 e.2.2 = []
      · exact c1.2
      · rw [if_neg c1] at hst
        by_cases c2 : commonCount e.2.1 e.2.2 = 0 ∧ uniqueNew e.2.1 e.2.2 = []
        · rw [if_pos c2] at hst; exact absurd hst (by simp)
        · rw [if_neg c2] at hst
          by_cases c3 : uniqueOld e.2.1 e.2.2 = [] ∨ uniqueNew e.2.1 e.2.2 = []
          · rw [if_pos c3] at hst; exact absurd hst (by simp)
          · rw [if_neg c3] at hst
            obtain ⟨c, hc⟩ := determineChangeStatus_getD_changed km
              (uniqueOld e.2.1 e.2.2) (uniqueNew e.2.1 e.2.2)
            rw [hc] at hst
            exact absurd hst (by simp)
    · intro hst
      simp only at hst ⊢
      by_cases c1 : commonCount e.2.1 e.2.2 = 0 ∧ uniqueOld e.2.1 e.2.2 = []
      · rw [if_pos c1] at hst; exact absurd hst (by simp)
      · rw [if_neg c1] at hst
        by_cases c2 : commonCount e.2.1 e.2.2 = 0 ∧ uniqueNew e.2.1 e.2.2 = []
        · exact c2.2
        · rw [if_neg c2] at hst
          by_cases c3 : uniqueOld e.2.1 e.2.2 = [] ∨ uniqueNew e.2.1 e.2.2 = []
          · rw [if_pos c3] at hst; exact absurd hst (by simp)
          · rw [if_neg c3] at hst
            obtain ⟨c, hc⟩ := determineChangeStatus_getD_changed km
              (uniqueOld e.2.1 e.2.2) (uniqueNew e.2.1 e.2.2)
            rw [hc] at hst
            exact absurd hst (by simp)
    · intro c _
      simp only
      exact hcond

/-- Witness for C8: the invariants instantiated on the concrete record the
builder produces for the bucket foo: [1.0] vs [2.0]. -/
theorem diff_record_invariants_witness :
    (Version.mk ("1.0".toList) 1).name ≠ (Version.mk ("2.0".toList) 1).name ∧
      ¬(([⟨("1.0".toList), 1⟩] : List Version) = [] ∧
        ([⟨("2.0".toList), 1⟩] : List Version) = []) := by
  have h := diff_record_invariants kmIdentity
    [("foo", [⟨("1.0".toList), 1⟩], [⟨("2.0".toList), 1⟩])] (by decide)
    ⟨"foo", [⟨("1.0".toList), 1⟩], [⟨("2.0".toList), 1⟩],
      .changed .upgraded, .unselected, false⟩
    (by decide)
  exact ⟨h.1 ⟨("1.0".toList), 1⟩ (by simp) ⟨("2.0".toList), 1⟩ (by simp),
    h.2.2.2 .upgraded rfl⟩

/-- C2 as stated is false: a bucket whose pairing yields neither an upgrade
nor a downgrade signal (the `(false, false)` case, here the distinct version
strings `1.0` and `1_0`, which compare Equal component-wise) is NOT dropped:
`determine_change_status` returns None and the call site's
`.unwrap_or(Changed(UpgradeDowngrade))` keeps the bucket with status
Changed(UpgradeDowngrade). -/
theorem no_signal_bucket_kept_counterexample :
    determineChangeStatus kmIdentity
        (uniqueOld [⟨("1.0".toList), 1⟩] [⟨("1_0".toList), 1⟩])
        (uniqueNew [⟨("1.0".toList), 1⟩] [⟨("1_0".toList), 1⟩]) = none ∧
      uniqueOld [⟨("1.0".toList), 1⟩] [⟨("1_0".toList), 1⟩] ≠ [] ∧
      uniqueNew [⟨("1.0".toList), 1⟩] [⟨("1_0".toList), 1⟩] ≠ [] ∧
      generateDiffsFromPaths kmIdentity
        [("pkg", [⟨("1.0".toList), 1⟩], [⟨("1_0".toList), 1⟩])] =
        [⟨"pkg", [⟨("1.0".toList), 1⟩], [⟨("1_0".toList), 1⟩],
          .changed .upgradeDowngrade, .unselected, false⟩] := by
  decide

/-- C2 (amended): for every package bucket that reaches the pairing-based
classification step (both unique_old and unique_new non-empty), if examining
every pairing yields neither an upgrade nor a downgrade signal (the
`(false, false)` case, where determine_change_status returns None), the
bucket is NOT dropped: the call site maps None to Changed(UpgradeDowngrade)
and pushes a Diff record with that status. -/
theorem no_signal_bucket_kept (km : List Version → List Version → List Nat)
    (name : String) (oldV newV : List Version)
    (huo : uniqueOld oldV newV ≠ []) (hun : uniqueNew oldV newV ≠ [])
    (hnone : determineChangeStatus km (uniqueOld oldV newV) (uniqueNew oldV newV) = none) :
    generateDiffsFromPaths km [(name, oldV, newV)] =
      [{ name := name
         old := uniqueOld oldV newV
         new := uniqueNew oldV newV
         status := .changed .upgradeDowngrade
         selection := .unselected
         hasCommonVersions := decide (0 < commonCount oldV newV) }] := by
  rw [generateDiffsFromPaths]
  simp only [List.filterMap]
  rw [bucketDiff]
  rw [if_neg (by intro h; exact huo h.1)]
  rw [if_neg (by intro h; exact huo h.2)]
  rw [if_neg (by intro h; exact hun h.2)]
  rw [if_neg (by rintro (h | h); exacts [huo h, hun h])]
  rw [hnone]
  rfl

/-- Witness for the amended C2 at the concrete `(false, false)` bucket. -/
theorem no_signal_bucket_kept_witness :
    generateDiffsFromPaths kmIdentity
        [("pkg2", [⟨("2.0".toList), 1⟩], [⟨("2_0".toList), 1⟩])] =
      [{ name := "pkg2"
         old := uniqueOld [⟨("2.0".toList), 1⟩] [⟨("2_0".toList), 1⟩]
         new := uniqueNew [⟨("2.0".toList), 1⟩] [⟨("2_0".toList), 1⟩]
         status := .changed .upgradeDowngrade
         selection := .unselected
         hasCommonVersions :=
           decide (0 < commonCount [⟨("2.0".toList), 1⟩] [⟨("2_0".toList), 1⟩]) }] :=
  no_signal_bucket_kept kmIdentity "pkg2" [⟨("2.0".toList), 1⟩]
    [⟨("2_0".toList), 1⟩] (by decide) (by decide) (by decide)

/-- itertools `zip_longest`: pair positionally, emitting one-sided values
once the shorter list is exhausted. -/
def zipLongest {α β : Type} : List α → List β → List (EitherOrBoth α β)
  | [], bs => bs.map .right
  | a :: as_, [] => (a :: as_).map .left
  | a :: as_, b :: bs => .both a b :: zipLongest as_ bs

/-- The ` ×N` multiplicity suffix written by `fmt_single_version_diff`. -/
def timesSuffix (n : Nat) : List Char := (" ×".toList) ++ (Nat.repr n).toList

/-- Model of `fmt_version_piece_pair` (src/diff.rs, lines 806-873) with the
ANSI styling stripped: accumulators receive the plain text each write would
produce (the spec's rendering contract is about which text is written; tests
compare styling-stripped output). The external character-level LCS diff
`diff::chars` is abstracted as `cd`; the `diff_active` flag only switches
colors and so vanishes in the plain-text model. -/
def fmtVersionPiecePair (cd : List Char → List Char → List (EitherOrBoth Char Char))
    (oldAcc newAcc : List Char) (op np : VersionPiece) : List Char × List Char :=
  if op = np then (oldAcc ++ pieceText op, newAcc ++ pieceText np)
  else
    match op, np with
    | .component oc, .component nc =>
      if 20 < oc.length ∧ 20 < nc.length ∧ ((List.zip oc nc).all fun p => p.1 != p.2) then
        (oldAcc ++ oc, newAcc ++ nc)
      else
        (cd oc nc).foldl
          (fun acc r =>
            match r with
            | .both l r => (acc.1 ++ [l], acc.2 ++ [r])
            | .left l => (acc.1 ++ [l], acc.2)
            | .right r => (acc.1, acc.2 ++ [r]))
          (oldAcc, newAcc)
    | _, _ => (oldAcc ++ pieceText op, newAcc ++ pieceText np)

/-- Model of `fmt_single_version_diff` (src/diff.rs, lines 689-790) with
styling stripped: common piece prefix and suffix are written to both sides,
the differing middle is paired positionally, and the multiplicity suffix
` ×N` is appended per side when the amount exceeds 1. -/
def fmtSingleVersionDiff (cd : List Char → List Char → List (EitherOrBoth Char Char))
    (oldAcc newAcc : List Char) (ov nv : Version) : List Char × List Char :=
  let op := pieces ov.name
  let np := pieces nv.name
  if (op = [] ∧ np = []) ∨ ov = nv then (oldAcc, newAcc)
  else
    let preLen := ((List.zip op np).takeWhile fun p => decide (p.1 = p.2)).length
    let oldRem := op.drop preLen
    let newRem := np.drop preLen
    let sufLen :=
      if oldRem ≠ [] ∧ newRem ≠ [] then
        ((List.zip oldRem.reverse newRem.reverse).takeWhile fun p => decide (p.1 = p.2)).length
      else 0
    let oldDiffEnd := op.length - sufLen
    let newDiffEnd := np.length - sufLen
    let oldDiff := (op.take oldDiffEnd).drop preLen
    let newDiff := (np.take newDiffEnd).drop preLen
    let sufP := if 0 < sufLen then op.drop oldDiffEnd else []
    let acc1 := (op.take preLen).foldl
      (fun a p => (a.1 ++ pieceText p, a.2 ++ pieceText p)) (oldAcc, newAcc)
    let acc2 := (zipLongest oldDiff newDiff).foldl
      (fun a pr =>
        match pr with
        | .left o => (a.1 ++ pieceText o, a.2)
        | .right n => (a.1, a.2 ++ pieceText n)
        | .both o n => fmtVersionPiecePair cd a.1 a.2 o n)
      acc1
    let acc3 := sufP.foldl (fun a p => (a.1 ++ pieceText p, a.2 ++ pieceText p)) acc2
    if ov.amount = nv.amount then
      if 1 < ov.amount then
        (acc3.1 ++ timesSuffix ov.amount, acc3.2 ++ timesSuffix nv.amount)
      else acc3
    else
      ((if 1 < ov.amount then acc3.1 ++ timesSuffix ov.amount else acc3.1),
        (if 1 < nv.amount then acc3.2 ++ timesSuffix nv.amount else acc3.2))

/-- The comma separator logic of `fmt_version_diffs`: prepend `, ` once the
side has already been written to. -/
def appendSep (acc : List Char) (wrote : Bool) : List Char :=
  if wrote then acc ++ (", ".toList) else acc

/-- Model of `fmt_version_diffs` (src/diff.rs, lines 595-661) with styling
stripped: walk the pairings, writing unmatched versions whole to their side
and matched unequal pairs through `fmt_single_version_diff`; skip equal
pairs; append `<others>` to both sides when common versions were removed.
Returns the (old side, new side) plain text. -/
def fmtVersionDiffs (km : List Version → List Version → List Nat)
    (cd : List Char → List Char → List (EitherOrBoth Char Char))
    (oldVersions newVersions : List Version) (hasCommon : Bool) :
    List Char × List Char :=
  let st := (matchVersionLists km oldVersions newVersions).foldl
    (fun (st : (List Char × List Char) × Bool × Bool) pr =>
      match pr with
      | .left o =>
        ((appendSep st.1.1 st.2.1 ++ joinPieces (pieces o.name), st.1.2), true, st.2.2)
      | .right n =>
        ((st.1.1, appendSep st.1.2 st.2.2 ++ joinPieces (pieces n.name)), st.2.1, true)
      | .both o n =>
        if o = n then st
        else
          (fmtSingleVersionDiff cd (appendSep st.1.1 st.2.1) (appendSep st.1.2 st.2.2) o n,
            true, true))
    ((([] : List Char), ([] : List Char)), false, false)
  if hasCommon then
    (appendSep st.1.1 st.2.1 ++ ("<others>".toList),
      appendSep st.1.2 st.2.2 ++ ("<others>".toList))
  else st.1

/-- A concrete character diff satisfying the `diff::chars` output contract
(left-side characters in order, then right-side characters in order). -/
def cdNaive : List Char → List Char → List (EitherOrBoth Char Char) :=
  fun a b => a.map .left ++ b.map .right

/-- C3 is right about the status and wrong about the rendering, and the code
is what is wrong: for a bucket with old versions [1.0, 1.0, 1.0] and new
versions [2.0], count_versions does count 1.0 three times, but the count is
discarded — the produced record carries Version "1.0" with amount 1, so the
old side renders as "1.0" and never receives the " ×3" multiplicity suffix
the spec expects (the suffix is only written when amount exceeds 1). The
status is Changed(Upgraded) as claimed. -/
theorem multiplicity_dropped :
    countVersions [⟨("1.0".toList), 1⟩, ⟨("1.0".toList), 1⟩, ⟨("1.0".toList), 1⟩] =
        [(⟨("1.0".toList), 1⟩, 3)] ∧
      generateDiffsFromPaths kmIdentity
        [("foo",
          [⟨("1.0".toList), 1⟩, ⟨("1.0".toList), 1⟩, ⟨("1.0".toList), 1⟩],
          [⟨("2.0".toList), 1⟩])] =
        [⟨"foo", [⟨("1.0".toList), 1⟩], [⟨("2.0".toList), 1⟩],
          .changed .upgraded, .unselected, false⟩] ∧
      fmtVersionDiffs kmIdentity cdNaive
        [⟨("1.0".toList), 1⟩] [⟨("2.0".toList), 1⟩] false =
        (("1.0".toList), ("2.0".toList)) ∧
      ("1.0".toList) ≠ ("1.0 ×3".toList) := by
  decide

end Dix
